import Mathlib

/-!
Verification of the `internship` interning library (`src/ibytes.rs`) against
its specification.

The repository's visible source is `src/ibytes.rs`: the `IBytes` wrapper type
around an interning `Handle`.  The interning engine itself (the `Handle` type
and the intern pool, from the crate modules `handle`/`pool`) is not part of
the visible source, so it is modelled here from the specification's words
(§3-§4 of the spec): a pool is a table of canonical slots, each slot holding
an immutable byte buffer and a reference count; `intern` deduplicates on
content; a `Handle` refers to one canonical slot and exposes its content.

Bytes are modelled as `Fin 256`; byte sequences as `List Byte`.
-/

abbrev Byte := Fin 256

abbrev ByteSeq := List Byte

/-- Modelled from the spec: a Canonical Slot of the intern pool — an
immutable byte buffer (owned copy of the interned content) together with a
reference count (§3 "Canonical Slot").  The cached content hash is omitted:
it is derived data, never observable through the API. -/
structure Slot where
  id : Nat
  content : ByteSeq
  refcount : Nat
deriving Repr, DecidableEq

/-- Modelled from the spec: the Intern Pool — a table of canonical slots
(§3 "Intern Pool").  `nextId` supplies fresh slot identities. -/
structure Pool where
  slots : List Slot
  nextId : Nat
deriving Repr, DecidableEq

/-- The empty pool (the lazily created initial state, §3). -/
def Pool.empty : Pool := { slots := [], nextId := 0 }

/-- Modelled from the spec: content lookup — the pool "looks up `bytes` by
content" (§4.1). -/
def Pool.lookup (p : Pool) (b : ByteSeq) : Option Slot :=
  p.slots.find? (fun s => s.content = b)

/-- Modelled from the spec: a Handle is "a reference-counted capability
referring to one canonical slot" (§3); it records the slot's identity and
gives zero-copy access to the slot's content (`bytes()`, §4.2). -/
structure Handle where
  id : Nat
  content : ByteSeq
deriving Repr, DecidableEq

/-- Modelled from the spec: `intern(bytes) -> Handle` (§4.1).  If a slot with
this content exists, increment its reference count and return a Handle to
it; otherwise insert a fresh slot with reference count 1. -/
def Pool.intern (p : Pool) (b : ByteSeq) : Pool × Handle :=
  match p.lookup b with
  | some s =>
      ({ p with
          slots := p.slots.map (fun t =>
            if t.id = s.id then { t with refcount := t.refcount + 1 } else t) },
       { id := s.id, content := s.content })
  | none =>
      ({ slots := { id := p.nextId, content := b, refcount := 1 } :: p.slots,
         nextId := p.nextId + 1 },
       { id := p.nextId, content := b })

/-- Modelled from the spec: cloning a Handle "increments the slot's reference
count and yields a new Handle referencing the same slot — no content copy"
(§3).  Returns the pool after the increment; the new Handle is identical to
the old one. -/
def Pool.cloneHandle (p : Pool) (h : Handle) : Pool × Handle :=
  ({ p with
      slots := p.slots.map (fun t =>
        if t.id = h.id then { t with refcount := t.refcount + 1 } else t) },
   h)

/-- Modelled from the spec: `release(slot)` — decrement the slot's reference
count; "if it reaches zero, atomically removes the slot from the table and
frees its buffer" (§4.1).  This is what dropping a Handle does (§4.2). -/
def Pool.release (p : Pool) (i : Nat) : Pool :=
  { p with
      slots := p.slots.filterMap (fun t =>
        if t.id = i then
          if t.refcount ≤ 1 then none
          else some { t with refcount := t.refcount - 1 }
        else some t) }

/-- Modelled from the spec: Handle equality — "two Handles are equal iff they
reference the same canonical slot OR (defensive fallback) their byte content
is equal" (§4.2). -/
def Handle.beq (a b : Handle) : Bool :=
  a.id = b.id ∨ a.content = b.content

/-- Byte-lexicographic strict order on byte sequences, as Rust orders `[u8]`
slices: element-wise comparison, a strict prefix is smaller. -/
def bytesLt : ByteSeq → ByteSeq → Bool
  | [], [] => false
  | [], _ :: _ => true
  | _ :: _, [] => false
  | a :: as, b :: bs => if a < b then true else if b < a then false else bytesLt as bs

/-- Modelled from the spec: Handle ordering — "total order consistent with
the byte-lexicographic order of the referenced content (not slot
identity/address)" (§4.2). -/
def Handle.blt (a b : Handle) : Bool :=
  bytesLt a.content b.content

/-- Modelled from the spec: `Handle::bytes()` (`Handle::get` in the source's
`self.0.get()`) — "zero-copy view into the canonical buffer" (§4.2). -/
def Handle.get (h : Handle) : ByteSeq := h.content

/-- `IBytes` from src/ibytes.rs line 16: a wrapper around one `Handle`. -/
structure IBytes where
  handle : Handle
deriving Repr, DecidableEq

/-- `IBytes::new` (src/ibytes.rs lines 19-21): `IBytes(Handle::new(src))`.
`Handle::new` is the engine's `intern`, so the model threads the pool. -/
def IBytes.new (p : Pool) (src : ByteSeq) : Pool × IBytes :=
  let r := p.intern src
  (r.1, ⟨r.2⟩)

/-- `IBytes::as_bytes` (src/ibytes.rs lines 27-30): `self.0.get()`. -/
def IBytes.as_bytes (x : IBytes) : ByteSeq :=
  x.handle.get

/-- Derived `PartialEq` on `IBytes` (src/ibytes.rs line 15): delegates to the
wrapped Handle's equality. -/
def IBytes.beq (a b : IBytes) : Bool :=
  Handle.beq a.handle b.handle

/-- Derived `Ord` on `IBytes` (src/ibytes.rs line 15): delegates to the
wrapped Handle's ordering. -/
def IBytes.blt (a b : IBytes) : Bool :=
  Handle.blt a.handle b.handle

/-- `impl Default for IBytes` (src/ibytes.rs lines 120-125):
`IBytes::new(&b""[..])`. -/
def IBytes.default (p : Pool) : Pool × IBytes :=
  IBytes.new p []

/-- `impl Hash for IBytes` (src/ibytes.rs lines 127-131): hash the content,
`Hash::hash(self.as_bytes(), hasher)`.  The hasher is modelled as an
arbitrary function from byte sequences to hash values. -/
def IBytes.hashWith (hasher : ByteSeq → Nat) (x : IBytes) : Nat :=
  hasher x.as_bytes

/-! ### Support lemmas about the modelled pool -/

/-- Bumping a refcount does not change a slot's content. -/
theorem bump_content (i : Nat) (t : Slot) :
    (if t.id = i then { t with refcount := t.refcount + 1 } else t).content
      = t.content := by
  split <;> rfl

/-- Bumping a refcount does not change a slot's id. -/
theorem bump_id (i : Nat) (t : Slot) :
    (if t.id = i then { t with refcount := t.refcount + 1 } else t).id = t.id := by
  split <;> rfl

/-- A slot found by content lookup has exactly that content. -/
theorem lookup_content (p : Pool) (b : ByteSeq) (s : Slot)
    (hl : p.lookup b = some s) : s.content = b := by
  unfold Pool.lookup at hl
  have h2 := List.find?_some hl
  simpa using h2

/-- The handle returned by `intern b` views exactly the content `b`. -/
theorem intern_content (p : Pool) (b : ByteSeq) : (p.intern b).2.content = b := by
  unfold Pool.intern
  cases hl : p.lookup b with
  | none => simp
  | some s =>
      simp only
      exact lookup_content p b s hl

/-- After `intern b`, looking up `b` in the resulting pool finds a slot whose
id is the returned handle's id, whose content is `b`, and whose reference
count is at least 1. -/
theorem lookup_intern_self (p : Pool) (b : ByteSeq) :
    ∃ s : Slot, (p.intern b).1.lookup b = some s ∧
      s.id = (p.intern b).2.id ∧ s.content = b ∧ 1 ≤ s.refcount := by
  unfold Pool.intern
  cases hl : p.lookup b with
  | none =>
      refine ⟨⟨p.nextId, b, 1⟩, ?_, rfl, rfl, le_refl 1⟩
      simp [Pool.lookup]
  | some s =>
      have hs : s.content = b := lookup_content p b s hl
      refine ⟨{ s with refcount := s.refcount + 1 }, ?_, rfl, hs, Nat.le_add_left 1 _⟩
      show List.find? _ (p.slots.map _) = _
      rw [List.find?_map]
      have hpred :
          ((fun t : Slot => decide (t.content = b)) ∘
            (fun t : Slot => if t.id = s.id then { t with refcount := t.refcount + 1 } else t))
          = fun t : Slot => decide (t.content = b) := by
        funext t
        simp [Function.comp, bump_content]
      unfold Pool.lookup at hl
      rw [hpred, hl]
      simp

/-- After `intern b`, the resulting pool holds a live slot for the returned
handle: same id, content `b`, reference count at least 1. -/
theorem intern_slot_mem (p : Pool) (b : ByteSeq) :
    ∃ s ∈ (p.intern b).1.slots,
      s.id = (p.intern b).2.id ∧ s.content = b ∧ 1 ≤ s.refcount := by
  obtain ⟨s, hfind, hid, hc, hrc⟩ := lookup_intern_self p b
  exact ⟨s, List.mem_of_find?_eq_some hfind, hid, hc, hrc⟩

/-- Well-formedness of a pool: slot ids are pairwise distinct, contents are
pairwise distinct (the spec's strict-dedup invariant, §3), and every id is
below `nextId`. -/
def Pool.WF (p : Pool) : Prop :=
  (p.slots.map Slot.id).Nodup ∧ (p.slots.map Slot.content).Nodup ∧
    ∀ s ∈ p.slots, s.id < p.nextId

instance (p : Pool) : Decidable p.WF := by
  unfold Pool.WF
  infer_instance

/-- `intern` preserves pool well-formedness. -/
theorem intern_wf (p : Pool) (b : ByteSeq) (hp : p.WF) : (p.intern b).1.WF := by
  obtain ⟨hid, hcont, hbound⟩ := hp
  unfold Pool.intern
  cases hl : p.lookup b with
  | none =>
      have hnotin : ∀ s ∈ p.slots, s.content ≠ b := by
        intro s hs
        have := (List.find?_eq_none.mp hl) s hs
        simpa using this
      refine ⟨?_, ?_, ?_⟩
      · simp only [List.map_cons, List.nodup_cons]
        refine ⟨?_, hid⟩
        intro hmem
        obtain ⟨s, hs, hsid⟩ := List.mem_map.mp hmem
        have := hbound s hs
        omega
      · simp only [List.map_cons, List.nodup_cons]
        refine ⟨?_, hcont⟩
        intro hmem
        obtain ⟨s, hs, hsc⟩ := List.mem_map.mp hmem
        exact hnotin s hs hsc
      · intro s hs
        simp only [List.mem_cons] at hs
        cases hs with
        | inl h => subst h; exact Nat.lt_succ_self _
        | inr h => exact Nat.lt_succ_of_lt (hbound s h)
  | some t =>
      have hidmap : (p.slots.map (fun u : Slot =>
          if u.id = t.id then { u with refcount := u.refcount + 1 } else u)).map Slot.id
          = p.slots.map Slot.id := by
        rw [List.map_map]
        apply List.map_congr_left
        intro u _
        exact bump_id t.id u
      have hcontmap : (p.slots.map (fun u : Slot =>
          if u.id = t.id then { u with refcount := u.refcount + 1 } else u)).map Slot.content
          = p.slots.map Slot.content := by
        rw [List.map_map]
        apply List.map_congr_left
        intro u _
        exact bump_content t.id u
      refine ⟨?_, ?_, ?_⟩
      · show ((p.slots.map _).map Slot.id).Nodup
        rw [hidmap]; exact hid
      · show ((p.slots.map _).map Slot.content).Nodup
        rw [hcontmap]; exact hcont
      · intro s hs
        obtain ⟨u, hu, rfl⟩ := List.mem_map.mp hs
        have : ((if u.id = t.id then { u with refcount := u.refcount + 1 } else u) : Slot).id
            = u.id := bump_id t.id u
        rw [this]
        exact hbound u hu

/-- A slot found by content lookup is a member of the pool's table. -/
theorem lookup_mem (p : Pool) (b : ByteSeq) (s : Slot)
    (hl : p.lookup b = some s) : s ∈ p.slots := by
  unfold Pool.lookup at hl
  exact List.mem_of_find?_eq_some hl

/-- Found case of `intern`: the returned handle names the found slot. -/
theorem intern_handle_found (p : Pool) (b : ByteSeq) (s : Slot)
    (hl : p.lookup b = some s) :
    (p.intern b).2 = { id := s.id, content := s.content } := by
  unfold Pool.intern
  rw [hl]

/-- Fresh case of `intern`: the returned handle names the fresh slot. -/
theorem intern_handle_fresh (p : Pool) (b : ByteSeq)
    (hl : p.lookup b = none) :
    (p.intern b).2 = { id := p.nextId, content := b } := by
  unfold Pool.intern
  rw [hl]

/-- In a well-formed pool, a slot is determined by its id. -/
theorem wf_id_inj (p : Pool) (hp : p.WF) {s1 s2 : Slot}
    (h1 : s1 ∈ p.slots) (h2 : s2 ∈ p.slots) (h : s1.id = s2.id) : s1 = s2 :=
  List.inj_on_of_nodup_map hp.1 h1 h2 h

/-- Handles with equal content are equal under Handle equality. -/
theorem Handle.beq_of_content (a b : Handle) (h : a.content = b.content) :
    Handle.beq a b = true := by
  simp only [Handle.beq, decide_eq_true_eq]
  exact Or.inr h

/-! ### Claim theorems -/

/-- C1: for byte sequences `a` and `b` with equal content, `IBytes::new(a)`
and `IBytes::new(b)` are equal under the type's equality, `as_bytes()` on
each returns identical content, and both refer to the same canonical slot. -/
theorem ibytes_new_dedup (p : Pool) (a b : ByteSeq) (hab : a = b) :
    IBytes.beq (IBytes.new p a).2 (IBytes.new (IBytes.new p a).1 b).2 = true
  ∧ (IBytes.new p a).2.as_bytes = (IBytes.new (IBytes.new p a).1 b).2.as_bytes
  ∧ (IBytes.new p a).2.handle.id = (IBytes.new (IBytes.new p a).1 b).2.handle.id := by
  subst hab
  obtain ⟨s, hfind, hid, hc, _⟩ := lookup_intern_self p a
  have h2 := intern_handle_found (p.intern a).1 a s hfind
  have h1c : (p.intern a).2.content = a := intern_content p a
  refine ⟨?_, ?_, ?_⟩
  · apply Handle.beq_of_content
    show (p.intern a).2.content = ((p.intern a).1.intern a).2.content
    rw [h1c, h2, hc]
  · show ((p.intern a).2.content : ByteSeq) = ((p.intern a).1.intern a).2.content
    rw [h1c, h2, hc]
  · show (p.intern a).2.id = ((p.intern a).1.intern a).2.id
    rw [h2, ← hid]

/-- C1 witness: interning `[104, 105]` twice from the empty pool. -/
theorem ibytes_new_dedup_witness :
    IBytes.beq (IBytes.new Pool.empty [104, 105]).2
        (IBytes.new (IBytes.new Pool.empty [104, 105]).1 [104, 105]).2 = true
  ∧ (IBytes.new Pool.empty [104, 105]).2.as_bytes
      = (IBytes.new (IBytes.new Pool.empty [104, 105]).1 [104, 105]).2.as_bytes
  ∧ (IBytes.new Pool.empty [104, 105]).2.handle.id
      = (IBytes.new (IBytes.new Pool.empty [104, 105]).1 [104, 105]).2.handle.id :=
  ibytes_new_dedup Pool.empty [104, 105] [104, 105] rfl

/-- C2: for byte sequences `a` and `b` with unequal content, `IBytes::new(a)`
and `IBytes::new(b)` are unequal under the type's equality (in any
well-formed pool). -/
theorem ibytes_new_distinct (p : Pool) (a b : ByteSeq) (hp : p.WF) (hab : a ≠ b) :
    IBytes.beq (IBytes.new p a).2 (IBytes.new (IBytes.new p a).1 b).2 = false := by
  have wf1 : (p.intern a).1.WF := intern_wf p a hp
  obtain ⟨s1, hs1mem, hs1id, hs1c, _⟩ := intern_slot_mem p a
  have h1c : (p.intern a).2.content = a := intern_content p a
  have h2c : ((p.intern a).1.intern b).2.content = b := intern_content (p.intern a).1 b
  show Handle.beq (p.intern a).2 ((p.intern a).1.intern b).2 = false
  simp only [Handle.beq, decide_eq_false_iff_not]
  rintro (heq | heq)
  · -- same slot id is impossible
    cases hl : (p.intern a).1.lookup b with
    | some s2 =>
        have h2 := intern_handle_found (p.intern a).1 b s2 hl
        have hs2mem := lookup_mem (p.intern a).1 b s2 hl
        have hs2c := lookup_content (p.intern a).1 b s2 hl
        have : s1.id = s2.id := by
          rw [hs1id, heq, h2]
        have := wf_id_inj (p.intern a).1 wf1 hs1mem hs2mem this
        exact hab (by rw [← hs1c, this, hs2c])
    | none =>
        have h2 := intern_handle_fresh (p.intern a).1 b hl
        have hlt : s1.id < (p.intern a).1.nextId := wf1.2.2 s1 hs1mem
        rw [hs1id, heq, h2] at hlt
        exact Nat.lt_irrefl _ hlt
  · exact hab ((h1c.symm.trans heq).trans h2c)

/-- C2 witness: interning `[0]` then `[1]` from the empty pool. -/
theorem ibytes_new_distinct_witness :
    IBytes.beq (IBytes.new Pool.empty [0]).2
        (IBytes.new (IBytes.new Pool.empty [0]).1 [1]).2 = false :=
  ibytes_new_distinct Pool.empty [0] [1] (by decide) (by decide)

/-- The executable byte-lexicographic comparison agrees with Mathlib's
lexicographic order on lists. -/
theorem bytesLt_iff_lex (a b : ByteSeq) :
    bytesLt a b = true ↔ List.Lex (fun x y : Byte => x < y) a b := by
  induction a generalizing b with
  | nil =>
      cases b with
      | nil =>
          simp only [bytesLt, Bool.false_eq_true, false_iff]
          exact List.Lex.not_nil_right _ _
      | cons y ys =>
          simp only [bytesLt, true_iff]
          exact List.Lex.nil
  | cons x xs ih =>
      cases b with
      | nil =>
          simp only [bytesLt, Bool.false_eq_true, false_iff]
          exact List.Lex.not_nil_right _ _
      | cons y ys =>
          simp only [bytesLt]
          by_cases h1 : x < y
          · simp only [h1, if_true, true_iff]
            exact List.Lex.rel h1
          · by_cases h2 : y < x
            · simp only [h1, h2, if_true, if_false, Bool.false_eq_true, false_iff]
              intro hlex
              cases hlex with
              | cons h => exact lt_irrefl x h2
              | rel h => exact h1 h
            · have hxy : x = y := le_antisymm (not_lt.mp h2) (not_lt.mp h1)
              subst hxy
              simp only [h1, h2, if_false, ih]
              constructor
              · exact fun h => List.Lex.cons h
              · intro hlex
                cases hlex with
                | cons h => exact h
                | rel h => exact absurd h h1

/-- C3: `IBytes::new(a) < IBytes::new(b)` under the derived total order iff
`a` is byte-lexicographically less than `b`; the order is determined by
content alone. -/
theorem ibytes_new_lt_iff_lex (p : Pool) (a b : ByteSeq) :
    IBytes.blt (IBytes.new p a).2 (IBytes.new (IBytes.new p a).1 b).2 = true
      ↔ List.Lex (fun x y : Byte => x < y) a b := by
  have h1 : (p.intern a).2.content = a := intern_content p a
  have h2 : ((p.intern a).1.intern b).2.content = b := intern_content (p.intern a).1 b
  show Handle.blt (p.intern a).2 ((p.intern a).1.intern b).2 = true ↔ _
  rw [Handle.blt, h1, h2, bytesLt_iff_lex]

/-- C4: hashing `IBytes::new(a)` with any hasher gives the same result as
hashing the raw byte sequence `a` directly. -/
theorem ibytes_hash_consistent (hasher : ByteSeq → Nat) (p : Pool) (a : ByteSeq) :
    IBytes.hashWith hasher (IBytes.new p a).2 = hasher a := by
  show hasher (p.intern a).2.content = hasher a
  rw [intern_content]

/-- C6: interning the empty byte sequence yields a handle with empty
content, two separate interns of the empty sequence yield equal handles, and
the `Default` value is exactly the empty interned handle. -/
theorem ibytes_default_empty (p : Pool) :
    (IBytes.new p []).2.as_bytes = []
  ∧ IBytes.beq (IBytes.new p []).2 (IBytes.new (IBytes.new p []).1 []).2 = true
  ∧ IBytes.default p = IBytes.new p [] := by
  refine ⟨?_, ?_, rfl⟩
  · show (p.intern []).2.content = []
    exact intern_content p []
  · apply Handle.beq_of_content
    show (p.intern []).2.content = ((p.intern []).1.intern []).2.content
    rw [intern_content, intern_content]

/-- C5: intern `a`, clone the handle, drop the original — `as_bytes()` on the
surviving clone still returns exactly `a`, and the canonical slot is still
live in the pool (content unchanged, reference count at least 1). -/
theorem ibytes_clone_drop_roundtrip (p : Pool) (a : ByteSeq) :
    IBytes.as_bytes ⟨((IBytes.new p a).1.cloneHandle (IBytes.new p a).2.handle).2⟩ = a
  ∧ ∃ s ∈ (((IBytes.new p a).1.cloneHandle (IBytes.new p a).2.handle).1.release
        (IBytes.new p a).2.handle.id).slots,
      s.id = (IBytes.new p a).2.handle.id ∧ s.content = a ∧ 1 ≤ s.refcount := by
  constructor
  · show (p.intern a).2.content = a
    exact intern_content p a
  · obtain ⟨s, hsmem, hsid, hsc, hsrc⟩ := intern_slot_mem p a
    have hmem2 : ({ s with refcount := s.refcount + 1 } : Slot)
        ∈ ((p.intern a).1.cloneHandle (p.intern a).2).1.slots := by
      show _ ∈ (p.intern a).1.slots.map _
      exact List.mem_map.mpr ⟨s, hsmem, by rw [if_pos hsid]⟩
    refine ⟨s, ?_, hsid, hsc, hsrc⟩
    show s ∈ List.filterMap _ _
    apply List.mem_filterMap.mpr
    refine ⟨{ s with refcount := s.refcount + 1 }, hmem2, ?_⟩
    have hid2 : ({ s with refcount := s.refcount + 1 } : Slot).id
        = (IBytes.new p a).2.handle.id := hsid
    rw [if_pos hid2]
    have hrc2 : ¬ (({ s with refcount := s.refcount + 1 } : Slot).refcount ≤ 1) := by
      show ¬ (s.refcount + 1 ≤ 1)
      omega
    rw [if_neg hrc2]
    show some { s with refcount := s.refcount + 1 - 1 } = some s
    cases s
    rfl

/-! ### UTF-8 validation and `to_istr` -/

/-- A UTF-8 continuation byte: `0x80 ..= 0xBF`. -/
def isCont (b : Byte) : Bool :=
  decide (0x80 ≤ b) && decide (b ≤ 0xBF)

/-- UTF-8 validity of a byte sequence, following the byte-class analysis of
Rust's `core::str::from_utf8` validation (first-byte ranges `0x00-0x7F`,
`0xC2-0xDF`, `0xE0-0xEF` with tightened second byte for `0xE0`/`0xED`,
`0xF0-0xF4` with tightened second byte for `0xF0`/`0xF4`), which rejects
overlong encodings, surrogate code points, and values above `U+10FFFF`. -/
def utf8Valid : ByteSeq → Bool
  | [] => true
  | b :: rest =>
    if b ≤ 0x7F then utf8Valid rest
    else if b < 0xC2 then false
    else if b ≤ 0xDF then
      match rest with
      | c :: rest2 => isCont c && utf8Valid rest2
      | [] => false
    else if b ≤ 0xEF then
      match rest with
      | c :: d :: rest2 =>
          (if b = 0xE0 then decide (0xA0 ≤ c) && decide (c ≤ 0xBF)
           else if b = 0xED then decide (0x80 ≤ c) && decide (c ≤ 0x9F)
           else isCont c) && isCont d && utf8Valid rest2
      | _ => false
    else if b ≤ 0xF4 then
      match rest with
      | c :: d :: e :: rest2 =>
          (if b = 0xF0 then decide (0x90 ≤ c) && decide (c ≤ 0xBF)
           else if b = 0xF4 then decide (0x80 ≤ c) && decide (c ≤ 0x8F)
           else isCont c) && isCont d && isCont e && utf8Valid rest2
      | _ => false
    else false

/-- `IStr` (declared in the crate's `istr` module): like `IBytes`, a wrapper
around one interning `Handle`, whose content is additionally valid UTF-8;
`src/ibytes.rs` line 34 constructs it as `IStr(self.0.clone())`. -/
structure IStr where
  handle : Handle
deriving Repr, DecidableEq

/-- `IBytes::to_istr` (src/ibytes.rs lines 32-35):
`from_utf8(self).map(|_| IStr(self.0.clone()))`.  On success the Handle is
cloned (reference count bumped) and wrapped in an `IStr`; on failure nothing
happens to the pool and the error is returned.  The `Utf8Error` payload is
modelled as `Unit`. -/
def IBytes.to_istr (p : Pool) (x : IBytes) : Pool × Except Unit IStr :=
  if utf8Valid x.as_bytes then
    let r := p.cloneHandle x.handle
    (r.1, Except.ok ⟨r.2⟩)
  else
    (p, Except.error ())

/-- C7: `to_istr` returns `Ok` exactly when the bytes are valid UTF-8; on
success the `IStr` shares the same handle (same slot, same content); on
failure the pool is left unchanged and the error is returned.  The check
happens after interning: `to_istr` operates on an already-interned value. -/
theorem to_istr_spec (p : Pool) (x : IBytes) :
    ((IBytes.to_istr p x).2.isOk = utf8Valid x.as_bytes)
  ∧ (utf8Valid x.as_bytes = true →
      (IBytes.to_istr p x).2 = Except.ok ⟨x.handle⟩
        ∧ (IBytes.to_istr p x).1 = (p.cloneHandle x.handle).1)
  ∧ (utf8Valid x.as_bytes = false →
      IBytes.to_istr p x = (p, Except.error ())) := by
  unfold IBytes.to_istr
  by_cases h : utf8Valid x.as_bytes
  · rw [if_pos h]
    exact ⟨by rw [h]; rfl, fun _ => ⟨rfl, rfl⟩, fun hf => absurd h (by rw [hf]; exact Bool.false_ne_true)⟩
  · rw [if_neg h]
    refine ⟨?_, fun ht => absurd ht h, fun _ => rfl⟩
    rw [Bool.eq_false_iff.mpr h]
    rfl

/-- C7 witness: a valid input (`"h"` = `[104]`) converts to an `IStr` sharing
the handle; an invalid input (`[255]`) fails and leaves the pool unchanged. -/
theorem to_istr_spec_witness :
    ((IBytes.to_istr Pool.empty ⟨⟨0, [104]⟩⟩).2
        = Except.ok ⟨(⟨0, [104]⟩ : Handle)⟩)
  ∧ (IBytes.to_istr Pool.empty ⟨⟨0, [255]⟩⟩ = (Pool.empty, Except.error ())) :=
  ⟨((to_istr_spec Pool.empty ⟨⟨0, [104]⟩⟩).2.1 (by decide)).1,
   (to_istr_spec Pool.empty ⟨⟨0, [255]⟩⟩).2.2 (by decide)⟩

/-! ### Content accessors and indexing -/

/-- `impl Deref for IBytes` (src/ibytes.rs lines 38-45): `self.as_bytes()`. -/
def IBytes.deref (x : IBytes) : ByteSeq := x.as_bytes

/-- `impl AsRef<[u8]> for IBytes` (src/ibytes.rs lines 176-181):
`self.as_bytes()`. -/
def IBytes.as_ref (x : IBytes) : ByteSeq := x.as_bytes

/-- `impl Borrow<[u8]> for IBytes` (src/ibytes.rs lines 133-138):
`self.as_bytes()`. -/
def IBytes.borrow (x : IBytes) : ByteSeq := x.as_bytes

/-- `impl Index<RangeFull> for IBytes` (src/ibytes.rs lines 167-174):
`&self.as_bytes()[..]`, the whole slice. -/
def IBytes.indexFull (x : IBytes) : ByteSeq := x.as_bytes

/-- `impl PartialEq<Vec<u8>> for IBytes` (src/ibytes.rs lines 102-106):
compare `self.as_bytes()` with the buffer's content. -/
def IBytes.eqVec (x : IBytes) (other : ByteSeq) : Bool :=
  x.as_bytes = other

/-- `impl PartialEq<&[u8]> for IBytes` (src/ibytes.rs lines 108-112). -/
def IBytes.eqSliceRef (x : IBytes) (other : ByteSeq) : Bool :=
  x.as_bytes = other

/-- `impl PartialEq<[u8]> for IBytes` (src/ibytes.rs lines 114-118). -/
def IBytes.eqSlice (x : IBytes) (other : ByteSeq) : Bool :=
  x.as_bytes = other

/-- C9: all content accessors agree — `Deref`, `AsRef<[u8]>`, `Borrow<[u8]>`
and full-range indexing return exactly `as_bytes()`, and equality against a
plain buffer holds iff the buffer equals `as_bytes()`. -/
theorem ibytes_accessors_agree (x : IBytes) :
    x.deref = x.as_bytes
  ∧ x.as_ref = x.as_bytes
  ∧ x.borrow = x.as_bytes
  ∧ x.indexFull = x.as_bytes
  ∧ (∀ v : ByteSeq, IBytes.eqVec x v = true ↔ v = x.as_bytes)
  ∧ (∀ v : ByteSeq, IBytes.eqSliceRef x v = true ↔ v = x.as_bytes)
  ∧ (∀ v : ByteSeq, IBytes.eqSlice x v = true ↔ v = x.as_bytes) := by
  refine ⟨rfl, rfl, rfl, rfl, ?_, ?_, ?_⟩ <;>
    · intro v
      simp only [IBytes.eqVec, IBytes.eqSliceRef, IBytes.eqSlice,
        decide_eq_true_eq]
      exact eq_comm

/-- Slice indexing with explicit bounds, as Rust's `&slice[start..end]`:
out of bounds (`start > end` or `end > len`) panics, modelled as `none`;
otherwise the subslice from `start` (inclusive) to `end` (exclusive). -/
def sliceIndex (l : ByteSeq) (s e : Nat) : Option ByteSeq :=
  if s ≤ e ∧ e ≤ l.length then some ((l.take e).drop s) else none

/-- `impl Index<Range<usize>> for IBytes` (src/ibytes.rs lines 140-147):
`&self.as_bytes()[index]`. -/
def IBytes.indexRange (x : IBytes) (s e : Nat) : Option ByteSeq :=
  sliceIndex x.as_bytes s e

/-- `impl Index<RangeFrom<usize>> for IBytes` (src/ibytes.rs lines 149-156):
`&self.as_bytes()[s..]`, i.e. the range `s..len`. -/
def IBytes.indexFrom (x : IBytes) (s : Nat) : Option ByteSeq :=
  sliceIndex x.as_bytes s x.as_bytes.length

/-- `impl Index<RangeTo<usize>> for IBytes` (src/ibytes.rs lines 158-165):
`&self.as_bytes()[..e]`, i.e. the range `0..e`. -/
def IBytes.indexTo (x : IBytes) (e : Nat) : Option ByteSeq :=
  sliceIndex x.as_bytes 0 e

/-- C10: under the bounds preconditions, indexing never hits the panic
branch and returns the corresponding subslice of `as_bytes()`; likewise for
`RangeFrom` and `RangeTo`. -/
theorem ibytes_index_in_bounds (x : IBytes) :
    (∀ s e : Nat, s ≤ e → e ≤ x.as_bytes.length →
        x.indexRange s e = some ((x.as_bytes.take e).drop s))
  ∧ (∀ s : Nat, s ≤ x.as_bytes.length →
        x.indexFrom s = some (x.as_bytes.drop s))
  ∧ (∀ e : Nat, e ≤ x.as_bytes.length →
        x.indexTo e = some (x.as_bytes.take e)) := by
  refine ⟨?_, ?_, ?_⟩
  · intro s e h1 h2
    unfold IBytes.indexRange sliceIndex
    rw [if_pos ⟨h1, h2⟩]
  · intro s h
    unfold IBytes.indexFrom sliceIndex
    rw [if_pos ⟨h, le_refl _⟩, List.take_length]
  · intro e h
    unfold IBytes.indexTo sliceIndex
    rw [if_pos ⟨Nat.zero_le e, h⟩, List.drop_zero]

/-- C10 witness: indexing `[1, 2, 3]` with `1..2`, `1..`, and `..2`. -/
theorem ibytes_index_in_bounds_witness :
    IBytes.indexRange ⟨⟨0, [1, 2, 3]⟩⟩ 1 2 = some [2]
  ∧ IBytes.indexFrom ⟨⟨0, [1, 2, 3]⟩⟩ 1 = some [2, 3]
  ∧ IBytes.indexTo ⟨⟨0, [1, 2, 3]⟩⟩ 2 = some [1, 2] :=
  ⟨((ibytes_index_in_bounds ⟨⟨0, [1, 2, 3]⟩⟩).1 1 2 (by decide) (by decide)).trans (by decide),
   ((ibytes_index_in_bounds ⟨⟨0, [1, 2, 3]⟩⟩).2.1 1 (by decide)).trans (by decide),
   ((ibytes_index_in_bounds ⟨⟨0, [1, 2, 3]⟩⟩).2.2 2 (by decide)).trans (by decide)⟩
